import Mathlib

/-!
# Verification of the `ArrayChunks` iterator adapter

Shallow embedding of `src/array_chunks_impl.rs`: an iterator adapter that
groups elements of a source iterator into fixed-size arrays of length `N`,
buffering a partially filled group in a `[MaybeUninit<T>; N]` array whose
liveness is tracked by the counter `num_init`.

Modelling choices:
* The source iterator `I` is modelled as a `List T` (a pull-based finite
  sequence of elements); `Iterator::next()` on it is pattern matching on the
  head.  For `size_hint` the source's own `(lower, upper)` hint is passed as
  an explicit argument, since the source is an opaque collaborator whose
  reported bounds are arbitrary.
* A `MaybeUninit<T>` slot is modelled as `Option T`, where `some v` means the
  slot holds a live, initialized value `v` and `none` means it holds no live
  value.  `MaybeUninit::new` is `some`; reading a slot with `assume_init`
  extracts the present values (`List.filterMap id`), which matches the code
  exactly on initialized slots.  After a completed chunk is moved out with
  `core::ptr::read` + `self.num_init = 0`, the slots' bytes remain in memory
  but hold no live value any more (the code's own safety comment: the items
  "will never be read again"); logically the slots are emptied in the same
  step that resets the counter, so the model sets them to `none` there.
* `usize` arithmetic is modelled on `Nat` with the explicit bound
  `USIZE_MAX = 2 ^ 64 - 1`; `saturating_add` and `checked_add` are spelled
  out.  A Rust panic (division by zero in `size_hint`) is modelled by an
  `Option` result, `none` meaning the call panics.
* `Drop::drop` is modelled by `dropRun`, the list of values whose destructor
  is executed, in execution order.
* `T::clone` is an arbitrary function `cloneT : T → T` supplied by the
  element type; `<List T as Clone>::clone` duplicates the source values.
-/

set_option autoImplicit false

namespace ArrayChunksModel

variable {T : Type} {N : Nat}

/-- The `ArrayChunks<I, T, N>` struct:
`iter: I` (source iterator, modelled as the list of elements it will still
yield), `buf: [MaybeUninit<T>; N]` (slots, `some` = holds a live value), and
`num_init: usize`. -/
structure ArrayChunks (T : Type) (N : Nat) where
  iter : List T
  buf : List (Option T)
  num_init : Nat
  deriving Repr, DecidableEq

/-- `ArrayChunks::new(iter)`: empty buffer (`MaybeUninit::uninit_array()`,
i.e. no slot holds a live value) and `num_init = 0`. -/
def new (iter : List T) : ArrayChunks T N :=
  { iter := iter, buf := List.replicate N none, num_init := 0 }

/-- `ArrayChunks::remainder(&self)`:
`MaybeUninit::slice_assume_init_ref(&self.buf[..self.num_init])` — the live
values stored in the first `num_init` slots, in order. -/
def remainder (s : ArrayChunks T N) : List T :=
  (s.buf.take s.num_init).filterMap id

/-- The `for slot in self.buf[self.num_init..]` loop of `Iterator::next`:
starting at slot index `i`, repeatedly pull `iter.next()` and store
`MaybeUninit::new(value)` into the next slot (incrementing the index) until
index `stop` (= `N`) is reached (result flag `true`, loop ran to completion)
or the source is exhausted first (the `?` operator: flag `false`, early
return).  Returns the remaining source, the updated slots, and the final
value of `num_init`. -/
def fillFrom (it : List T) (buf : List (Option T)) (i stop : Nat) :
    List T × List (Option T) × Nat × Bool :=
  if i < stop then
    match it with
    | [] => ([], buf, i, false)
    | x :: rest => fillFrom rest (buf.set i (some x)) (i + 1) stop
  else (it, buf, i, true)

/-- `Iterator::next(&mut self)`: run the fill loop from `self.num_init` to
`N`.  If the source was exhausted early (`?`), return `None`, keeping the
partially filled buffer.  Otherwise every slot is initialized; the chunk is
read out of the buffer (`MaybeUninit::array_assume_init(core::ptr::read(...))`)
and `self.num_init` is reset to `0` in the same step — the values have been
moved out, so no slot holds a live value afterwards (the bytes left behind
by `ptr::read` are dead, per the code's safety comment). -/
def next (s : ArrayChunks T N) : Option (List T) × ArrayChunks T N :=
  match fillFrom s.iter s.buf s.num_init N with
  | (it2, buf2, i2, false) => (none, ⟨it2, buf2, i2⟩)
  | (it2, buf2, _, true) =>
      (some (buf2.filterMap id), ⟨it2, List.replicate N none, 0⟩)

/-- `usize::MAX` on a 64-bit target. -/
def USIZE_MAX : Nat := 2 ^ 64 - 1

/-- `usize::saturating_add`. -/
def saturating_add (a b : Nat) : Nat := min (a + b) USIZE_MAX

/-- `usize::checked_add`: `none` on overflow. -/
def checked_add (a b : Nat) : Option Nat :=
  if a + b ≤ USIZE_MAX then some (a + b) else none

/-- Rust integer division: panics (`none`) when the divisor is zero. -/
def rustDiv (a b : Nat) : Option Nat :=
  if b = 0 then none else some (a / b)

/-- `Iterator::size_hint(&self)`.  `iterHint` is what `self.iter.size_hint()`
returns (the source's reported lower bound and optional upper bound).  The
outer `Option` models panicking: `none` = the call panics (division by zero),
`some (lo, hi)` = the call returns `(lo, hi)`.  Mirrors the evaluation order
of the code: `min_chunks` is computed first, then `max_chunks` via
`max_items.and_then(|m| Some(m.checked_add(self.num_init)? / N))`. -/
def size_hint (N num_init : Nat) (iterHint : Nat × Option Nat) :
    Option (Nat × Option Nat) :=
  match rustDiv (saturating_add iterHint.1 num_init) N with
  | none => none
  | some min_chunks =>
    match iterHint.2 with
    | none => some (min_chunks, none)
    | some max_items =>
      match checked_add max_items num_init with
      | none => some (min_chunks, none)
      | some total =>
        match rustDiv total N with
        | none => none
        | some max_chunks => some (min_chunks, some max_chunks)

/-- The size estimate as the specification words it (for comparison with
`size_hint`, which is translated from the code): the lower bound is the
plain mathematical quotient `(source_lower + filled) / N`, and the upper
bound is `(source_upper + filled) / N`, absent when the source's upper
bound is unknown or when adding `filled` to it would overflow. -/
def size_hint_claimed (N num_init : Nat) (iterHint : Nat × Option Nat) :
    Nat × Option Nat :=
  ((iterHint.1 + num_init) / N,
   iterHint.2.bind fun m =>
     if m + num_init ≤ USIZE_MAX then some ((m + num_init) / N) else none)

/-- The buffer-copy loop of `Clone::clone`: a fresh uninitialized buffer of
the same length receives, for each of the first `k = num_init` slots, a new
live value `src.assume_init_ref().clone()`; the remaining slots stay
uninitialized (`none`), not bit-copies of the original. -/
def cloneBuf (cloneT : T → T) (src : List (Option T)) (k : Nat) :
    List (Option T) :=
  (src.take k).map (Option.map cloneT) ++ List.replicate (src.length - k) none

/-- `Clone::clone(&self)`: clones the source iterator (for a pure list of
values that yields the same element sequence), deep-copies the first
`num_init` slots element-wise with `cloneT` (= `T::clone`), and copies
`num_init`. -/
def clone (cloneT : T → T) (s : ArrayChunks T N) : ArrayChunks T N :=
  { iter := s.iter, buf := cloneBuf cloneT s.buf s.num_init,
    num_init := s.num_init }

/-- `Drop::drop(&mut self)`: runs `assume_init_drop` on each slot of
`self.buf[..self.num_init]`, in order.  The result is the list of values
whose destructor is executed, in execution order; slots outside the range
are not touched. -/
def dropRun (s : ArrayChunks T N) : List T :=
  (s.buf.take s.num_init).filterMap id

/-- An observable operation on a buffer: an `advance` (a call to
`Iterator::next`, discarding the produced group) or a duplication (`clone`,
continuing on the new buffer; continuing on the original is the same as not
cloning, since `clone` takes `&self`). -/
inductive Op
  | advance
  | dupe
  deriving Repr, DecidableEq

/-- Run a sequence of operations on a buffer. -/
def runOps (cloneT : T → T) : List Op → ArrayChunks T N → ArrayChunks T N
  | [], s => s
  | Op.advance :: ops, s => runOps cloneT ops (next s).2
  | Op.dupe :: ops, s => runOps cloneT ops (clone cloneT s)

/-- Iterated `Iterator::next`, discarding the produced groups. -/
def iterNext : Nat → ArrayChunks T N → ArrayChunks T N
  | 0, s => s
  | j + 1, s => iterNext j (next s).2

/-- Call `Iterator::next` repeatedly (at most `fuel` times), collecting the
produced groups in production order, until a call yields no group. -/
def exhaust : Nat → ArrayChunks T N → List (List T) × ArrayChunks T N
  | 0, s => ([], s)
  | fuel + 1, s =>
    match next s with
    | (none, s2) => ([], s2)
    | (some c, s2) =>
      let r := exhaust fuel s2
      (c :: r.1, r.2)

/-- Helper describing the effect of the fill loop on the slots: `setMany buf
i xs` stores the values `xs` into consecutive slots starting at index `i`. -/
def setMany : List (Option T) → Nat → List T → List (Option T)
  | buf, _, [] => buf
  | buf, i, x :: xs => setMany (buf.set i (some x)) (i + 1) xs

/-- Well-formedness of a buffer state: `num_init ≤ N` and the slots consist
of `num_init` live values followed by `N - num_init` empty slots.  This is
the soundness invariant the code's safety comments rely on. -/
def WF (s : ArrayChunks T N) : Prop :=
  ∃ pre : List T, pre.length = s.num_init ∧ s.num_init ≤ N ∧
    s.buf = pre.map some ++ List.replicate (N - s.num_init) none

/-! ### Helper lemmas about the fill loop and the slot array -/

theorem fill_exhaust (xs : List T) : ∀ (buf : List (Option T)) (i stop : Nat),
    i + xs.length < stop →
    fillFrom xs buf i stop = ([], setMany buf i xs, i + xs.length, false) := by
  induction xs with
  | nil =>
    intro buf i stop h
    simp only [List.length_nil, Nat.add_zero] at h
    simp [fillFrom, setMany, h]
  | cons x rest ih =>
    intro buf i stop h
    have hi : i < stop := by simp at h; omega
    rw [fillFrom, if_pos hi]
    rw [ih (buf.set i (some x)) (i + 1) stop (by simp at h ⊢; omega)]
    simp [setMany]
    omega

theorem fill_complete (xs : List T) : ∀ (buf : List (Option T)) (i stop : Nat),
    i ≤ stop → stop ≤ i + xs.length →
    fillFrom xs buf i stop
      = (xs.drop (stop - i), setMany buf i (xs.take (stop - i)), stop, true) := by
  induction xs with
  | nil =>
    intro buf i stop h1 h2
    have : i = stop := by simp at h2; omega
    subst this
    simp [fillFrom, setMany]
  | cons x rest ih =>
    intro buf i stop h1 h2
    by_cases hi : i < stop
    · rw [fillFrom, if_pos hi]
      rw [ih (buf.set i (some x)) (i + 1) stop (by omega) (by simp at h2 ⊢; omega)]
      have hd : stop - i = (stop - (i + 1)) + 1 := by omega
      rw [hd]
      simp [setMany]
    · have : i = stop := by omega
      subst this
      simp [fillFrom, setMany]

theorem setMany_append_map (xs : List T) : ∀ (pre : List T) (rest : List (Option T)),
    xs.length ≤ rest.length →
    setMany (pre.map some ++ rest) pre.length xs
      = (pre ++ xs).map some ++ rest.drop xs.length := by
  induction xs with
  | nil => intro pre rest h; simp [setMany]
  | cons x xs ih =>
    intro pre rest h
    match rest with
    | [] => simp at h
    | r :: rest2 =>
      show setMany ((pre.map some ++ r :: rest2).set pre.length (some x))
        (pre.length + 1) xs = _
      have hset : (pre.map some ++ r :: rest2).set pre.length (some x)
          = (pre ++ [x]).map some ++ rest2 := by
        have hlen : pre.length = (pre.map some).length := by simp
        rw [hlen]
        simp [List.set_append]
      rw [hset]
      have hlen2 : pre.length + 1 = (pre ++ [x]).length := by simp
      rw [hlen2, ih (pre ++ [x]) rest2 (by simp at h ⊢; omega)]
      simp

theorem remainder_decomp (it : List T) (pre : List T) (tail : List (Option T))
    (k : Nat) (hk : k = pre.length) :
    remainder (⟨it, pre.map some ++ tail, k⟩ : ArrayChunks T N) = pre := by
  subst hk
  show ((pre.map some ++ tail).take pre.length).filterMap id = pre
  have hlen : pre.length = (pre.map some).length := by simp
  rw [hlen, List.take_left]
  simp

/-- Behaviour of `Iterator::next` when the source exhausts before the group
completes: no group, the pulled elements extend the live prefix, and
`num_init` ends at the number of live slots. -/
theorem next_none_of_short (it : List T) (pre : List T) (k : Nat)
    (hk : pre.length = k) (hshort : k + it.length < N) :
    next (⟨it, pre.map some ++ List.replicate (N - k) none, k⟩ : ArrayChunks T N)
      = (none, ⟨[], (pre ++ it).map some
          ++ List.replicate (N - (k + it.length)) none, k + it.length⟩) := by
  subst hk
  have hf := fill_exhaust it (pre.map some ++ List.replicate (N - pre.length) none)
    pre.length N hshort
  rw [next]
  rw [hf]
  rw [setMany_append_map it pre (List.replicate (N - pre.length) none)
    (by simp; omega)]
  rw [List.drop_replicate]
  have : N - pre.length - it.length = N - (pre.length + it.length) := by omega
  rw [this]

/-- Behaviour of `Iterator::next` when the source can fill the group: the
produced chunk is the live prefix followed by the next `N - k` source
elements, those elements are consumed from the source, and the buffer is
left with no live slot and `num_init = 0`. -/
theorem next_some_of_long (it : List T) (pre : List T) (k : Nat)
    (hk : pre.length = k) (hkN : k ≤ N) (hlong : N ≤ k + it.length) :
    next (⟨it, pre.map some ++ List.replicate (N - k) none, k⟩ : ArrayChunks T N)
      = (some (pre ++ it.take (N - k)),
         ⟨it.drop (N - k), List.replicate N none, 0⟩) := by
  subst hk
  have hf := fill_complete it (pre.map some ++ List.replicate (N - pre.length) none)
    pre.length N hkN hlong
  have htk : (it.take (N - pre.length)).length = N - pre.length :=
    List.length_take_of_le (by omega)
  rw [next]
  rw [hf]
  rw [setMany_append_map (it.take (N - pre.length)) pre
    (List.replicate (N - pre.length) none) (by simp)]
  rw [htk, List.drop_replicate, Nat.sub_self, List.replicate_zero, List.append_nil]
  simp [← List.map_take]

/-- A buffer whose source is exhausted and whose group is incomplete is a
fixed point of `Iterator::next`: the call returns no group and changes
nothing. -/
theorem next_fixed (s : ArrayChunks T N) (hit : s.iter = [])
    (hk : s.num_init < N) : next s = (none, s) := by
  obtain ⟨it, buf, k⟩ := s
  simp only at hit hk
  subst hit
  simp [next, fillFrom, hk]

/-- Main induction for the no-loss/no-duplication property: from any
well-formed state with an incomplete group, running the iterator to
exhaustion yields groups and a final remainder that concatenate to the live
prefix followed by the remaining source elements, and the final state is
exhausted. -/
theorem exhaust_concat (hN : 0 < N) : ∀ (fuel : Nat) (s : ArrayChunks T N)
    (pre : List T), pre.length = s.num_init → s.num_init < N →
    s.buf = pre.map some ++ List.replicate (N - s.num_init) none →
    s.iter.length < fuel →
    (exhaust fuel s).1.flatten ++ remainder (exhaust fuel s).2 = pre ++ s.iter
      ∧ (exhaust fuel s).2.iter = []
      ∧ (next (exhaust fuel s).2).1 = none := by
  intro fuel
  induction fuel with
  | zero => intro s pre h1 h2 h3 h4; omega
  | succ f ih =>
    intro s pre h1 h2 h3 h4
    obtain ⟨it, buf, k⟩ := s
    simp only at h1 h2 h3 h4
    subst h3
    by_cases hc : k + it.length < N
    · have hn := next_none_of_short (N := N) it pre k h1 hc
      rw [exhaust, hn]
      refine ⟨?_, rfl, ?_⟩
      · simp only [List.flatten_nil, List.nil_append]
        exact remainder_decomp _ _ _ _ (by simp [h1])
      · have := next_none_of_short (N := N) [] (pre ++ it) (k + it.length)
          (by simp [h1]) (by simp; omega)
        simp only [List.append_nil, Nat.add_zero] at this
        rw [this]
    · have hs := next_some_of_long it pre k h1 (le_of_lt h2) (by omega)
      rw [exhaust, hs]
      have hlen : (it.drop (N - k)).length < f := by simp; omega
      have ihr := ih ⟨it.drop (N - k), List.replicate N none, 0⟩ [] rfl hN
        (by simp) hlen
      obtain ⟨e1, e2, e3⟩ := ihr
      simp only at e1 e2 e3 ⊢
      refine ⟨?_, e2, e3⟩
      rw [List.flatten_cons, List.append_assoc, e1]
      rw [List.nil_append, List.append_assoc, List.take_append_drop]

/-- Main induction for the counting property: from a freshly emptied buffer
over a source of exactly `Q * N + R` elements (`R < N`), running to
exhaustion yields exactly `Q` groups, each of length `N`, concatenating to
the first `Q * N` source elements, and leaves the last `R` elements as the
remainder. -/
theorem exhaust_count (hN : 0 < N) : ∀ (Q : Nat) (R : Nat) (fuel : Nat)
    (it : List T), it.length = Q * N + R → R < N → it.length < fuel →
    (exhaust fuel (⟨it, List.replicate N none, 0⟩ : ArrayChunks T N)).1.length = Q
      ∧ (∀ c ∈ (exhaust fuel (⟨it, List.replicate N none, 0⟩ : ArrayChunks T N)).1,
          c.length = N)
      ∧ (exhaust fuel (⟨it, List.replicate N none, 0⟩ : ArrayChunks T N)).1.flatten
          = it.take (Q * N)
      ∧ remainder (exhaust fuel (⟨it, List.replicate N none, 0⟩ : ArrayChunks T N)).2
          = it.drop (Q * N)
      ∧ (next (exhaust fuel (⟨it, List.replicate N none, 0⟩ : ArrayChunks T N)).2).1
          = none := by
  intro Q
  induction Q with
  | zero =>
    intro R fuel it hlen hR hfuel
    match fuel with
    | 0 => omega
    | f + 1 =>
      have hshape : (List.replicate N none : List (Option T))
          = List.map some [] ++ List.replicate (N - 0) none := by simp
      have hn := next_none_of_short (N := N) it [] 0 rfl (by omega)
      simp only [List.map_nil, List.nil_append, Nat.zero_add, Nat.sub_zero] at hn hshape
      rw [exhaust, hn]
      simp only [Nat.zero_mul, List.take_zero, List.drop_zero, List.length_nil,
        List.flatten_nil]
      refine ⟨by simp, by simp, by simp, ?_, ?_⟩
      · exact remainder_decomp _ _ _ _ (by simp)
      · have := next_none_of_short (N := N) [] it it.length (by simp) (by simp; omega)
        simp only [List.append_nil, Nat.add_zero, Nat.zero_add] at this
        rw [this]
  | succ Q ih =>
    intro R fuel it hlen hR hfuel
    match fuel with
    | 0 => omega
    | f + 1 =>
      have hlong : N ≤ 0 + it.length := by simp [hlen]; nlinarith
      have hs := next_some_of_long (N := N) it [] 0 rfl (by omega) hlong
      simp only [List.map_nil, List.nil_append, Nat.sub_zero] at hs
      rw [exhaust, hs]
      have hlen2 : (it.drop N).length = Q * N + R := by
        simp [hlen]; ring_nf; omega
      have hfuel2 : (it.drop N).length < f := by
        simp at hlen2 ⊢; omega
      obtain ⟨e1, e2, e3, e4, e5⟩ := ih R f (it.drop N) hlen2 hR hfuel2
      simp only at e1 e2 e3 e4 e5 ⊢
      have hQN : (Q + 1) * N = N + Q * N := by ring
      refine ⟨by simp [e1], ?_, ?_, ?_, e5⟩
      · intro c hc
        rw [List.mem_cons] at hc
        rcases hc with hc | hc
        · subst hc
          exact List.length_take_of_le (by omega)
        · exact e2 c hc
      · rw [List.flatten_cons, e3, hQN, List.take_add]
      · rw [e4, List.drop_drop, hQN]

/-- The effect of the buffer-copy loop of `Clone::clone` on a well-formed
slot array: the live prefix is cloned element-wise, the rest of the fresh
buffer stays uninitialized. -/
theorem cloneBuf_decomp (cloneT : T → T) (pre : List T) (k m : Nat)
    (hk : pre.length = k) :
    cloneBuf cloneT (pre.map some ++ List.replicate m none) k
      = (pre.map cloneT).map some ++ List.replicate m none := by
  unfold cloneBuf
  have h1 : (pre.map some ++ List.replicate m none).take k = pre.map some := by
    rw [← hk]
    have h : pre.length = (pre.map some).length := by simp
    rw [h, List.take_left]
  have h2 : (pre.map some ++ List.replicate m none).length - k = m := by
    simp [hk]
  rw [h1, h2, List.map_map]
  simp [Function.comp]

/-- `new` establishes the soundness invariant. -/
theorem WF_new (l : List T) : WF (new l : ArrayChunks T N) :=
  ⟨[], rfl, Nat.zero_le N, by simp [new]⟩

/-- `Iterator::next` preserves the soundness invariant. -/
theorem WF_next (s : ArrayChunks T N) (h : WF s) : WF (next s).2 := by
  obtain ⟨pre, h1, h2, h3⟩ := h
  obtain ⟨it, buf, k⟩ := s
  simp only at h1 h2 h3
  subst h3
  by_cases hc : k + it.length < N
  · rw [next_none_of_short it pre k h1 hc]
    refine ⟨pre ++ it, by simp [h1], ?_, rfl⟩
    show k + it.length ≤ N
    omega
  · rw [next_some_of_long it pre k h1 h2 (by omega)]
    exact ⟨[], rfl, Nat.zero_le N, by simp⟩

/-- `Clone::clone` preserves the soundness invariant. -/
theorem WF_clone (cloneT : T → T) (s : ArrayChunks T N) (h : WF s) :
    WF (clone cloneT s) := by
  obtain ⟨pre, h1, h2, h3⟩ := h
  obtain ⟨it, buf, k⟩ := s
  simp only at h1 h2 h3
  subst h3
  refine ⟨pre.map cloneT, by simp [clone, h1], h2, ?_⟩
  show cloneBuf cloneT (pre.map some ++ List.replicate (N - k) none) k
    = (pre.map cloneT).map some ++ List.replicate (N - k) none
  exact cloneBuf_decomp cloneT pre k (N - k) h1

/-- Any interleaving of advances and duplications preserves the soundness
invariant. -/
theorem WF_runOps (cloneT : T → T) : ∀ (ops : List Op) (s : ArrayChunks T N),
    WF s → WF (runOps cloneT ops s) := by
  intro ops
  induction ops with
  | nil => intro s h; exact h
  | cons op ops ih =>
    intro s h
    cases op
    · exact ih _ (WF_next s h)
    · exact ih _ (WF_clone cloneT s h)

/-- A state that `next` leaves unchanged stays unchanged under any number of
further calls. -/
theorem iterNext_of_fixed (s : ArrayChunks T N) (h : next s = (none, s)) :
    ∀ j, iterNext j s = s := by
  intro j
  induction j with
  | zero => rfl
  | succ j ih => rw [iterNext, h]; exact ih

/-! ### Claim theorems -/

/-- C1: for every finite source and every `N > 0`, concatenating all groups
produced by successive `next` calls, in production order, followed by the
contents of the remainder view after exhaustion, yields exactly the
source's original element sequence — same elements, same order, none
skipped, none repeated (and the final state is indeed exhausted: one more
`next` yields no group). -/
theorem c1_no_loss_no_dup (hN : 0 < N) (l : List T) :
    (exhaust (l.length + 1) (new l : ArrayChunks T N)).1.flatten
        ++ remainder (exhaust (l.length + 1) (new l : ArrayChunks T N)).2 = l
      ∧ (next (exhaust (l.length + 1) (new l : ArrayChunks T N)).2).1 = none := by
  have h := exhaust_concat (N := N) hN (l.length + 1) (new l) [] rfl hN
    (by simp [new]) (by simp [new])
  obtain ⟨e1, _, e3⟩ := h
  refine ⟨?_, e3⟩
  rw [e1]
  rfl

/-- Witness for C1 at `N = 2`, source `[1,2,3,4,5]`. -/
theorem c1_witness :
    (exhaust 6 (new [1, 2, 3, 4, 5] : ArrayChunks Nat 2)).1.flatten
        ++ remainder (exhaust 6 (new [1, 2, 3, 4, 5] : ArrayChunks Nat 2)).2
          = [1, 2, 3, 4, 5]
      ∧ (next (exhaust 6 (new [1, 2, 3, 4, 5] : ArrayChunks Nat 2)).2).1 = none :=
  c1_no_loss_no_dup (by decide) [1, 2, 3, 4, 5]

/-- C2: for every sequence of operations on a buffer (advances interleaved
with duplications), at every observable point `0 ≤ num_init ≤ N` holds, the
slot array has length `N`, and exactly the slots at indices
`[0, num_init)` hold live constructed values while the slots at
`[num_init, N)` hold no live value (the buffer decomposes as `num_init`
live slots followed by `N - num_init` empty ones).  Destruction at any such
point is covered by `c5_drop_exact`: it releases exactly the live prefix. -/
theorem c2_invariant (cloneT : T → T) (ops : List Op) (l : List T) :
    (runOps cloneT ops (new l : ArrayChunks T N)).num_init ≤ N
    ∧ (runOps cloneT ops (new l : ArrayChunks T N)).buf.length = N
    ∧ ∃ pre : List T,
        pre.length = (runOps cloneT ops (new l : ArrayChunks T N)).num_init
        ∧ (runOps cloneT ops (new l : ArrayChunks T N)).buf
            = pre.map some
              ++ List.replicate
                  (N - (runOps cloneT ops (new l : ArrayChunks T N)).num_init)
                  none := by
  have h := WF_runOps (N := N) cloneT ops (new l) (WF_new l)
  obtain ⟨pre, h1, h2, h3⟩ := h
  refine ⟨h2, ?_, pre, h1, h3⟩
  rw [h3]
  simp [h1]
  omega

/-- C3: for every `N > 0` and source with exactly `Q * N + R` elements
(`0 ≤ R < N`), running to exhaustion produces exactly `Q` full groups, each
of length `N`, in source order (their concatenation is the first `Q * N`
source elements), followed by "no group available", and the remainder view
afterwards contains the final `R` source elements in original order. -/
theorem c3_count (hN : 0 < N) (Q R : Nat) (l : List T)
    (hlen : l.length = Q * N + R) (hR : R < N) :
    (exhaust (l.length + 1) (new l : ArrayChunks T N)).1.length = Q
      ∧ (∀ c ∈ (exhaust (l.length + 1) (new l : ArrayChunks T N)).1, c.length = N)
      ∧ (exhaust (l.length + 1) (new l : ArrayChunks T N)).1.flatten
          = l.take (Q * N)
      ∧ remainder (exhaust (l.length + 1) (new l : ArrayChunks T N)).2
          = l.drop (Q * N)
      ∧ (next (exhaust (l.length + 1) (new l : ArrayChunks T N)).2).1 = none :=
  exhaust_count hN Q R (l.length + 1) l hlen hR (by omega)

/-- Witness for C3: the spec's scenario, source `[1,2,3,4,5]`, `N = 2`
(`Q = 2`, `R = 1`): the advances yield `[1,2]` then `[3,4]`, then no group,
with remainder `[5]`. -/
theorem c3_witness :
    ((exhaust 6 (new [1, 2, 3, 4, 5] : ArrayChunks Nat 2)).1 = [[1, 2], [3, 4]]
      ∧ remainder (exhaust 6 (new [1, 2, 3, 4, 5] : ArrayChunks Nat 2)).2 = [5])
    ∧ ((exhaust 6 (new [1, 2, 3, 4, 5] : ArrayChunks Nat 2)).1.length = 2
      ∧ (∀ c ∈ (exhaust 6 (new [1, 2, 3, 4, 5] : ArrayChunks Nat 2)).1,
          c.length = 2)
      ∧ (exhaust 6 (new [1, 2, 3, 4, 5] : ArrayChunks Nat 2)).1.flatten
          = [1, 2, 3, 4]
      ∧ remainder (exhaust 6 (new [1, 2, 3, 4, 5] : ArrayChunks Nat 2)).2 = [5]
      ∧ (next (exhaust 6 (new [1, 2, 3, 4, 5] : ArrayChunks Nat 2)).2).1 = none) :=
  ⟨by decide, c3_count (by decide) 2 1 [1, 2, 3, 4, 5] (by decide) (by decide)⟩

/-- C4: if the source exhausts while only `k < N` slots are filled, the
`next` call stops, returns no group, and leaves `num_init` at `k` (strictly
less than `N`) with the partial live prefix intact; every subsequent `next`
call against the still-exhausted source returns the same "no group"
result and changes nothing. -/
theorem c4_exhaustion (s : ArrayChunks T N) (pre : List T)
    (h1 : pre.length = s.num_init)
    (h3 : s.buf = pre.map some ++ List.replicate (N - s.num_init) none)
    (hshort : s.num_init + s.iter.length < N) :
    (next s).1 = none
    ∧ (next s).2.num_init = s.num_init + s.iter.length
    ∧ (next s).2.num_init < N
    ∧ remainder (next s).2 = remainder s ++ s.iter
    ∧ ∀ j : Nat, iterNext j (next s).2 = (next s).2
        ∧ (next (iterNext j (next s).2)).1 = none := by
  obtain ⟨it, buf, k⟩ := s
  simp only at h1 h3 hshort
  subst h3
  rw [next_none_of_short it pre k h1 hshort]
  have hrem : remainder (⟨it, pre.map some ++ List.replicate (N - k) none, k⟩ :
      ArrayChunks T N) = pre := remainder_decomp _ _ _ _ h1.symm
  have hrem2 : remainder (⟨[], (pre ++ it).map some
      ++ List.replicate (N - (k + it.length)) none, k + it.length⟩ :
      ArrayChunks T N) = pre ++ it :=
    remainder_decomp _ _ _ _ (by simp [h1])
  have hfix : next (⟨[], (pre ++ it).map some
      ++ List.replicate (N - (k + it.length)) none, k + it.length⟩ :
      ArrayChunks T N) = (none, ⟨[], (pre ++ it).map some
      ++ List.replicate (N - (k + it.length)) none, k + it.length⟩) :=
    next_fixed _ rfl hshort
  refine ⟨rfl, rfl, hshort, by rw [hrem2, hrem], ?_⟩
  intro j
  rw [iterNext_of_fixed _ hfix j]
  exact ⟨rfl, by rw [hfix]⟩

/-- Witness for C4 at `N = 3`, source `[1]` (exhausts with one slot
filled). -/
theorem c4_witness :
    (next (new [1] : ArrayChunks Nat 3)).1 = none
    ∧ (next (new [1] : ArrayChunks Nat 3)).2.num_init = 1
    ∧ (next (new [1] : ArrayChunks Nat 3)).2.num_init < 3
    ∧ remainder (next (new [1] : ArrayChunks Nat 3)).2 = [1]
    ∧ ∀ j : Nat,
        iterNext j (next (new [1] : ArrayChunks Nat 3)).2
            = (next (new [1] : ArrayChunks Nat 3)).2
        ∧ (next (iterNext j (next (new [1] : ArrayChunks Nat 3)).2)).1 = none :=
  c4_exhaustion (new [1]) [] rfl rfl (by decide)

/-- C5: destroying a buffer whose filled count is `M` runs the element
cleanup exactly once for each of the `M` live values at slots `[0, M)` —
the executed destructor list is exactly the live prefix, in order — and
performs no release or read of any slot at indices `[M, N)`: the result is
unchanged for an arbitrary replacement of the slots beyond the live prefix.
Holds at every well-formed state, including `M = 0` (no destructor runs)
and `0 < M < N`. -/
theorem c5_drop_exact (s : ArrayChunks T N) (pre : List T)
    (h1 : pre.length = s.num_init)
    (h3 : s.buf = pre.map some ++ List.replicate (N - s.num_init) none) :
    dropRun s = pre
    ∧ (dropRun s).length = s.num_init
    ∧ ∀ junk : List (Option T),
        dropRun (⟨s.iter, pre.map some ++ junk, s.num_init⟩ : ArrayChunks T N)
          = pre := by
  obtain ⟨it, buf, k⟩ := s
  simp only at h1 h3
  subst h3
  have hmain : dropRun (⟨it, pre.map some ++ List.replicate (N - k) none, k⟩ :
      ArrayChunks T N) = pre := remainder_decomp _ _ _ _ h1.symm
  refine ⟨hmain, by rw [hmain, h1], ?_⟩
  intro junk
  exact remainder_decomp _ _ _ _ h1.symm

/-- Witness for C5 at `N = 3`, `M = 2`: dropping runs the cleanup exactly
on the two live values `1, 2`. -/
theorem c5_witness :
    dropRun (⟨[], [some 1, some 2, none], 2⟩ : ArrayChunks Nat 3) = [1, 2]
    ∧ (dropRun (⟨[], [some 1, some 2, none], 2⟩ : ArrayChunks Nat 3)).length = 2
    ∧ ∀ junk : List (Option Nat),
        dropRun (⟨[], [some 1, some 2] ++ junk, 2⟩ : ArrayChunks Nat 3) = [1, 2] :=
  c5_drop_exact ⟨[], [some 1, some 2, none], 2⟩ [1, 2] rfl rfl

/-- C6: cloning a buffer with filled count `M` produces a buffer whose
filled count is also `M`, whose first `M` slots hold element-wise clones
(`cloneT` = `T::clone`) of the original's first `M` values, whose remaining
`N - M` slots are genuinely empty (`none`, not bit-copies), and whose
source is a duplicate of the original's source positioned at the same
point.  The two buffers are separate values, so subsequent advances on one
cannot affect the other's buffered state or source position. -/
theorem c6_clone_spec (cloneT : T → T) (s : ArrayChunks T N) (pre : List T)
    (h1 : pre.length = s.num_init)
    (h3 : s.buf = pre.map some ++ List.replicate (N - s.num_init) none) :
    (clone cloneT s).num_init = s.num_init
    ∧ (clone cloneT s).iter = s.iter
    ∧ (clone cloneT s).buf
        = (pre.map cloneT).map some ++ List.replicate (N - s.num_init) none
    ∧ remainder (clone cloneT s) = pre.map cloneT := by
  obtain ⟨it, buf, k⟩ := s
  simp only at h1 h3
  subst h3
  have hbuf : cloneBuf cloneT (pre.map some ++ List.replicate (N - k) none) k
      = (pre.map cloneT).map some ++ List.replicate (N - k) none :=
    cloneBuf_decomp cloneT pre k (N - k) h1
  refine ⟨rfl, rfl, hbuf, ?_⟩
  show remainder (⟨it, cloneBuf cloneT (pre.map some
    ++ List.replicate (N - k) none) k, k⟩ : ArrayChunks T N) = pre.map cloneT
  rw [hbuf]
  exact remainder_decomp _ _ _ _ (by simp [h1])

/-- Witness for C6 at `N = 3`, `M = 2`, with the non-trivial element clone
`Nat.succ`: the clone's live prefix is the element-wise clone `[2, 3]` of
`[1, 2]`, and its third slot is genuinely empty. -/
theorem c6_witness :
    (clone Nat.succ (⟨[7], [some 1, some 2, none], 2⟩ : ArrayChunks Nat 3)).num_init
        = 2
    ∧ (clone Nat.succ (⟨[7], [some 1, some 2, none], 2⟩ : ArrayChunks Nat 3)).iter
        = [7]
    ∧ (clone Nat.succ (⟨[7], [some 1, some 2, none], 2⟩ : ArrayChunks Nat 3)).buf
        = [some 2, some 3, none]
    ∧ remainder (clone Nat.succ (⟨[7], [some 1, some 2, none], 2⟩ :
        ArrayChunks Nat 3)) = [2, 3] :=
  c6_clone_spec Nat.succ ⟨[7], [some 1, some 2, none], 2⟩ [1, 2] rfl rfl

/-- C8: for `N = 0`, every `next` call immediately returns the empty group
without consulting the source (the source component is untouched), for
every source and every buffer state. -/
theorem c8_empty_group (it : List T) (k : Nat) :
    next (⟨it, [], k⟩ : ArrayChunks T 0) = (some [], ⟨it, [], 0⟩) := by
  have hfill : fillFrom it ([] : List (Option T)) k 0 = (it, [], k, true) := by
    cases it <;> simp [fillFrom]
  simp [next, hfill]

/-- C9: for `N = 0`, the `size_hint` computation divides by `N = 0` without
a guard (in the lower-bound computation, and in the upper-bound computation
when it is reached), so the call panics for every source and every buffer
state — modelled by the `none` result.  (`next` and `remainder` are total
Lean functions over the same states, so advance and the remainder view stay
well-defined at `N = 0`, cf. `c8_empty_group`.) -/
theorem c9_size_hint_panics (k : Nat) (iterHint : Nat × Option Nat) :
    size_hint 0 k iterHint = none := by
  simp [size_hint, rustDiv]

/-- C7 (counterexample): the claim's lower-bound formula
`(source_lower + filled) / N` with plain addition disagrees with the code
at `N = 2`, `filled = 1`, `source_lower = usize::MAX`: the code saturates
the sum at `usize::MAX` before dividing, so it reports
`usize::MAX / 2 = 2 ^ 63 - 1`, while the claimed formula gives
`(usize::MAX + 1) / 2 = 2 ^ 63`. -/
theorem c7_counterexample :
    (size_hint 2 1 (USIZE_MAX, none)).map Prod.fst
      ≠ some (size_hint_claimed 2 1 (USIZE_MAX, none)).1 := by decide

/-- C7 (amended): for every `N > 0` and every buffer state, `size_hint`
returns (without panicking) the lower bound
`min (source_lower + filled) usize::MAX / N` — i.e. the claimed quotient
with *saturating* addition — and the upper bound
`(source_upper + filled) / N`, which is absent exactly when the source's
upper bound is unknown or adding `filled` to it would overflow; in those
cases only the lower bound is reported. -/
theorem c7_size_hint_amended (n k min_items : Nat) (maxi : Option Nat)
    (hN : 0 < n) :
    ∃ lo hi, size_hint n k (min_items, maxi) = some (lo, hi)
      ∧ lo = min (min_items + k) USIZE_MAX / n
      ∧ (hi = none ↔ maxi = none ∨ ∃ m, maxi = some m ∧ USIZE_MAX < m + k)
      ∧ ∀ m, maxi = some m → m + k ≤ USIZE_MAX → hi = some ((m + k) / n) := by
  have hn : n ≠ 0 := Nat.pos_iff_ne_zero.mp hN
  have hdiv : ∀ a, rustDiv a n = some (a / n) := by intro a; simp [rustDiv, hn]
  cases maxi with
  | none =>
    refine ⟨saturating_add min_items k / n, none, ?_, rfl, by simp, ?_⟩
    · simp [size_hint, hdiv]
    · intro m hm
      exact absurd hm (by simp)
  | some m =>
    by_cases hover : m + k ≤ USIZE_MAX
    · refine ⟨saturating_add min_items k / n, some ((m + k) / n), ?_, rfl, ?_, ?_⟩
      · simp [size_hint, hdiv, checked_add, hover]
      · constructor
        · intro h; cases h
        · rintro (h | ⟨m2, hm2, hlt⟩)
          · cases h
          · injection hm2 with h
            omega
      · intro m2 hm2 h2
        injection hm2 with h
        subst h
        rfl
    · refine ⟨saturating_add min_items k / n, none, ?_, rfl, ?_, ?_⟩
      · simp [size_hint, hdiv, checked_add, hover]
      · simp
        omega
      · intro m2 hm2 h2
        injection hm2 with h
        omega

/-- Witness for the amended C7 at `N = 2`, `filled = 1`, source hint
`(5, some 7)`. -/
theorem c7_witness :
    ∃ lo hi, size_hint 2 1 (5, some 7) = some (lo, hi)
      ∧ lo = min (5 + 1) USIZE_MAX / 2
      ∧ (hi = none ↔ (some 7 : Option Nat) = none
          ∨ ∃ m, (some 7 : Option Nat) = some m ∧ USIZE_MAX < m + 1)
      ∧ ∀ m, (some 7 : Option Nat) = some m → m + 1 ≤ USIZE_MAX
          → hi = some ((m + 1) / 2) :=
  c7_size_hint_amended 2 1 5 (some 7) (by decide)

/-- C10: for every `N > 0`, the lower bound is computed with saturating
addition: when `source_lower + filled` exceeds `usize::MAX`, the reported
lower bound is `usize::MAX / N` (the sum saturates at the maximum before
division) rather than wrapping around or being omitted — the call still
returns a value whose lower bound is exactly that quotient. -/
theorem c10_saturating_lower (n k min_items : Nat) (maxi : Option Nat)
    (hN : 0 < n) (hover : USIZE_MAX < min_items + k) :
    ∃ hi, size_hint n k (min_items, maxi) = some (USIZE_MAX / n, hi) := by
  have hn : n ≠ 0 := Nat.pos_iff_ne_zero.mp hN
  have hsat : saturating_add min_items k = USIZE_MAX := by
    simp [saturating_add]
    omega
  cases maxi with
  | none => exact ⟨none, by simp [size_hint, rustDiv, hn, hsat]⟩
  | some m =>
    by_cases h2 : m + k ≤ USIZE_MAX
    · exact ⟨some ((m + k) / n),
        by simp [size_hint, rustDiv, hn, hsat, checked_add, h2]⟩
    · exact ⟨none, by simp [size_hint, rustDiv, hn, hsat, checked_add, h2]⟩

/-- Witness for C10 at `N = 2`, `filled = 1`, `source_lower = usize::MAX`:
the lower bound saturates to `usize::MAX / 2`. -/
theorem c10_witness :
    ∃ hi, size_hint 2 1 (USIZE_MAX, none) = some (USIZE_MAX / 2, hi) :=
  c10_saturating_lower 2 1 USIZE_MAX none (by decide) (by decide)

end ArrayChunksModel
